import Mathlib

/-!
# Verification of the fect carrier/combinator runtime

A shallow embedding of the runtime core of the `fect` library:

* `lib/fect.ts` (the variant with lazy support, given as `unnamed/part_005`):
  carrier construction (`ok`, `err`, `fail`), the runtime effect-metadata
  merge (`mergeFxRuntime`, a JS object spread), `settleToPayload`,
  `buildLazy` / `forceFectLazy`;
* `lib/fn.ts`: the `fn` wrapper — `toCoreInput`, `evaluate`, `wrapped`;
* `lib/match.ts`: `partiallyHandlePayload` and `partial`;
* `lib/remotevalue.ts`: `RemoteValue.fill` / `fail` and the id registry.

JS dynamic values are embedded as the inductive `Val`.  Asynchrony is
embedded by recording, inside a pending payload or a promise value, the
eventual settlement together with a settle `time : Nat`; the host's
`Promise.all` is order-preserving (fan-in results are listed in input
position order, independent of completion times), which the model
reflects by ignoring the recorded times when joining.  Handler calls and
lazy forcing performed by the pipeline (now or in a deferred/async
continuation) are recorded in the evaluation output so that
"the handler body is never invoked" and "the thunk is never forced"
become statements about those logs.
-/

namespace Fect

/-- `Payload<A, E>` from `lib/fect.ts`: `{ tag: "ok", value }` or
`{ tag: "err", error }`. -/
inductive Payload (α : Type) : Type where
  | ok (v : α)
  | err (e : α)
  deriving DecidableEq, Repr

/-- Outcome of a `Promise<Payload>`: it either resolves with a payload or
rejects with a cause. -/
inductive POut (α : Type) : Type where
  | resolve (p : Payload α)
  | reject (cause : α)
  deriving DecidableEq, Repr

/-- A carrier's runtime payload slot: either a settled payload object or a
pending `Promise<Payload>` (the "type-level lie" of `makeCoreAsync`).  The
`time` is the instant the promise settles; it is phantom data used to state
settlement-order independence. -/
inductive FPayload (α : Type) : Type where
  | settled (p : Payload α)
  | pending (time : Nat) (out : POut α)
  deriving DecidableEq, Repr

/-- JS runtime values reachable in the pipeline: scalars, tagged objects
(`{ _tag, cause }`, used for tagged errors and the two default defects),
`Fail` markers, `FectLazy` wrappers, promises, and `Fect` carriers.
A lazy wrapper carries an `id` (logged when it is forced) and the value its
thunk produces; a promise carries its settle time and either its fulfilment
value (`rejected = false`) or its rejection cause (`rejected = true`).
A carrier pairs an `FPayload` with its `fx` record, a JS object embedded as
a key/value list. -/
inductive Val : Type where
  | unit
  | boolv (b : Bool)
  | num (n : Int)
  | str (s : String)
  | tagged (tag : String) (cause : Val)
  | failv (e : Val)
  | lazyv (id : Nat) (inner : Val)
  | prom (time : Nat) (rejected : Bool) (v : Val)
  | fect (p : FPayload Val) (fx : List (String × Val))

/-- `isFect` (`lib/fect.ts`): the value carries the `FECT` symbol. -/
def isFectV : Val → Bool
  | .fect _ _ => true
  | _ => false

/-- `isPromiseLike` (`lib/fect.ts`): the value has a callable `then`. -/
def isPromiseLikeV : Val → Bool
  | .prom _ _ _ => true
  | _ => false

/-- `isFail` (`lib/fect.ts`): the value carries the `FAIL` symbol. -/
def isFailV : Val → Bool
  | .failv _ => true
  | _ => false

/-- `isFectLazy` (`lib/fect.ts`): the value carries the `FECT_LAZY` symbol. -/
def isFectLazyV : Val → Bool
  | .lazyv _ _ => true
  | _ => false

/-- The `_tag` discriminant of a value, when it is a tagged object whose
`_tag` is a string (`typeof maybeError._tag === "string"`). -/
def getTag : Val → Option String
  | .tagged t _ => some t
  | _ => none

/-- An `FxShape` record at runtime: a JS object as an ordered key/value list. -/
abbrev FxRec : Type := List (String × Val)

/-- Does the record own the key? (`k in obj`). -/
def hasKeyFx (r : FxRec) (k : String) : Bool :=
  r.any (fun p => p.1 == k)

/-- `mergeFxRuntime(a, b) = { ...a, ...b }` from `lib/fect.ts`: the keys of
`a` not shadowed by `b`, in order, followed by the keys of `b`. -/
def mergeFxRuntime (a b : FxRec) : FxRec :=
  a.filter (fun p => !(hasKeyFx b p.1)) ++ b

/-- `defaultMapRejected` (`lib/fect.ts`): builds a `PromiseRejected` defect. -/
def defaultMapRejected (cause : Val) : Val :=
  .tagged "PromiseRejected" cause

/-- `defaultMapThrown` (`lib/fect.ts`): builds an `UnknownException` defect. -/
def defaultMapThrown (cause : Val) : Val :=
  .tagged "UnknownException" cause

/-- `FnOptions`: the optional defect mappings accepted by `fn`. -/
structure FnOptions : Type where
  mapDefect : Option (Val → Val) := none
  mapRejected : Option (Val → Val) := none
  mapThrown : Option (Val → Val) := none

/-- `options?.mapRejected ?? options?.mapDefect ?? defaultMapRejected`
(`lib/fn.ts`). -/
def resolvedMapRejected (o : FnOptions) : Val → Val :=
  (o.mapRejected.orElse fun _ => o.mapDefect).getD defaultMapRejected

/-- `options?.mapThrown ?? options?.mapDefect ?? defaultMapThrown`
(`lib/fn.ts`). -/
def resolvedMapThrown (o : FnOptions) : Val → Val :=
  (o.mapThrown.orElse fun _ => o.mapDefect).getD defaultMapThrown

/-- `ok(value)` (`lib/fect.ts`): success carrier with empty metadata. -/
def okC (v : Val) : Val :=
  .fect (.settled (.ok v)) []

/-- `err(error)` (`lib/fect.ts`): failure carrier declaring its variant. -/
def errC (e : Val) : Val :=
  .fect (.settled (.err e)) [("result", e)]

/-- `forceFectLazy` (`lib/fect.ts`): repeatedly force nested lazies until a
non-lazy value is reached.  Returns the value and the ids forced, outermost
first. -/
def forceFectLazyM : Val → Val × List Nat
  | .lazyv id inner =>
    let r := forceFectLazyM inner
    (r.1, id :: r.2)
  | v => (v, [])

/-- Full adoption of a promise: the eventual fulfilment value (never itself
a promise) or the rejection cause. -/
def resolveProm : Val → Except Val Val
  | .prom _ true c => .error c
  | .prom _ false v => resolveProm v
  | v => .ok v

/-- `settleToPayload(raw)` (`lib/fect.ts`) as observed through the `.then`
chain that consumes it: a `Fail` becomes an error payload, a carrier's
payload is adopted (a pending payload's own settlement, including its
rejection, passes through), anything else becomes a success payload. -/
def settleToPayloadM : Val → POut Val
  | .failv e => .resolve (.err e)
  | .fect (.settled p) _ => .resolve p
  | .fect (.pending _ out) _ => out
  | v => .resolve (.ok v)

/-- `Promise.resolve(raw).then(settleToPayload, (cause) => err(mapRejected cause))`
(`lib/fn.ts`, used for promise-like handler results): a rejection of `raw`
is mapped, and the fulfilment value is settled to a payload. -/
def settleAsyncRaw (mr : Val → Val) (raw : Val) : POut Val :=
  match resolveProm raw with
  | .error cause => .resolve (.err (mr cause))
  | .ok v => settleToPayloadM v

/-- `toCoreInput` (`lib/fn.ts`): carriers pass through; promise-likes become
pending carriers with fx `{ async: true, result: true }` whose rejection is
mapped by `mapRejected`; anything else is wrapped by `ok`. -/
def toCoreInputM (mr : Val → Val) (input : Val) : Val :=
  if isFectV input then input
  else if isPromiseLikeV input then
    .fect
      (.pending (match input with | .prom t _ _ => t | _ => 0)
        (match resolveProm input with
          | .ok v => .resolve (.ok v)
          | .error cause => .resolve (.err (mr cause))))
      [("async", .boolv true), ("result", .boolv true)]
  else okC input

/-- A handler invocation's result: it returns a value or throws, and may
have forced some lazy ids while running. -/
inductive HOut : Type where
  | ret (v : Val) (forced : List Nat)
  | thr (c : Val) (forced : List Nat)

/-- A handler body: from the argument list to its outcome. -/
abbrev Handler : Type := List Val → HOut

/-- The observable outcome of one run of `evaluate`: the value returned (or
the value thrown, for an uncaught synchronous throw), the argument lists of
the handler invocations performed (now or in the async continuation), and
the lazy ids forced by the pipeline and the handler. -/
structure EvalOut : Type where
  res : Except Val Val
  calls : List (List Val)
  forced : List Nat

/-- Payload slot of a carrier (carriers only reach this accessor). -/
def payloadOf : Val → FPayload Val
  | .fect p _ => p
  | _ => .settled (.ok .unit)

/-- `fx` slot of a carrier. -/
def fxOf : Val → FxRec
  | .fect _ fx => fx
  | _ => []

/-- Is the payload slot a pending promise? (`isPromiseLike(payload)`). -/
def isPendingF : FPayload Val → Bool
  | .pending _ _ => true
  | .settled _ => false

/-- `p.tag === "err"` on a settled payload. -/
def isErrP : Payload Val → Bool
  | .err _ => true
  | .ok _ => false

/-- `p.value` of a settled payload (error payloads never reach this). -/
def okValOf : Payload Val → Val
  | .ok v => v
  | .err e => e

/-- Read a settled payload slot (the fully synchronous infected path casts
the payloads, all settled there). -/
def forceSettled : FPayload Val → Payload Val
  | .settled sp => sp
  | _ => .ok .unit

/-- Per-input resolution in the async branch of `evaluate`:
`Promise.resolve(payload).then(resolved => resolved, cause => err(mapRejected(cause)))`. -/
def resolveSettled (mr : Val → Val) : FPayload Val → Payload Val
  | .settled p => p
  | .pending _ (.resolve p) => p
  | .pending _ (.reject cause) => .err (mr cause)

/-- The continuation `Promise.all(...).then(resolvedInputs => ...)` of the
async branch of `evaluate` (`lib/fn.ts`): scan for the first error in input
position order; otherwise call the handler on the unwrapped values and
settle its result.  Returns the joined settlement plus the call/force logs
of this continuation. -/
def joinResolved (mr mt : Val → Val) (H : Handler)
    (resolvedInputs : List (Payload Val)) : POut Val × List (List Val) × List Nat :=
  match resolvedInputs.find? isErrP with
  | some firstErr => (.resolve firstErr, [], [])
  | none =>
    let values := resolvedInputs.map okValOf
    match H values with
    | .thr cause f => (.resolve (.err (mt cause)), [values], f)
    | .ret outRaw f =>
      if isPromiseLikeV outRaw then
        (settleAsyncRaw mr outRaw, [values], f)
      else if isFectLazyV outRaw then
        let forcedOut := forceFectLazyM outRaw
        (settleToPayloadM forcedOut.1, [values], f ++ forcedOut.2)
      else
        (settleToPayloadM outRaw, [values], f)

/-- The plain-call path of `evaluate` (`lib/fn.ts`): no carrier or
promise-like argument, so the handler is invoked directly (a synchronous
throw propagates); an async result is wrapped in a minimal async carrier, a
`Fail` is converted by `err`, and anything else — a lazy included — is
returned as-is. -/
def plainBranch (mr : Val → Val) (H : Handler) (inputs : List Val) : EvalOut :=
  match H inputs with
  | .thr cause f => ⟨.error cause, [inputs], f⟩
  | .ret outRaw f =>
    if isPromiseLikeV outRaw then
      ⟨.ok (.fect (.pending 0 (settleAsyncRaw mr outRaw))
        [("async", .boolv true), ("result", .boolv true)]), [inputs], f⟩
    else if isFailV outRaw then
      ⟨.ok (errC (match outRaw with | .failv e => e | _ => .unit)), [inputs], f⟩
    else
      -- both the `isFectLazy` branch and the final fallthrough return `outRaw`
      ⟨.ok outRaw, [inputs], f⟩

/-- The fully synchronous infected path of `evaluate` (`lib/fn.ts`): settled
payloads, first-error short-circuit, then handler invocation with the
thrown/async/lazy/`Fail`/carrier result conversions and fx merges. -/
def syncBranch (mr mt : Val → Val) (H : Handler) (mergedInFx : FxRec)
    (settledPayloads : List (Payload Val)) : EvalOut :=
  match settledPayloads.find? isErrP with
  | some firstErr => ⟨.ok (.fect (.settled firstErr) mergedInFx), [], []⟩
  | none =>
    let values := settledPayloads.map okValOf
    match H values with
    | .thr cause f =>
      ⟨.ok (.fect (.settled (.err (mt cause)))
        (mergeFxRuntime mergedInFx [("result", .boolv true)])), [values], f⟩
    | .ret outRaw f =>
      if isPromiseLikeV outRaw then
        ⟨.ok (.fect (.pending 0 (settleAsyncRaw mr outRaw))
          (mergeFxRuntime mergedInFx
            [("async", .boolv true), ("result", .boolv true)])), [values], f⟩
      else if isFectLazyV outRaw then
        let forcedOut := forceFectLazyM outRaw
        ⟨.ok forcedOut.1, [values], f ++ forcedOut.2⟩
      else if isFailV outRaw then
        let e := match outRaw with | .failv e => e | _ => .unit
        ⟨.ok (.fect (.settled (.err e))
          (mergeFxRuntime mergedInFx [("result", e)])), [values], f⟩
      else if isFectV outRaw then
        ⟨.ok (.fect (payloadOf outRaw) (mergeFxRuntime mergedInFx (fxOf outRaw))),
          [values], f⟩
      else
        ⟨.ok (.fect (.settled (.ok outRaw)) mergedInFx), [values], f⟩

/-- `evaluate` (`lib/fn.ts`): dispatch between the plain path, the async
infected path (resolve all payloads, join positionally) and the synchronous
infected path. -/
def evaluateM (mr mt : Val → Val) (H : Handler) (inputs : List Val) : EvalOut :=
  let infectedCall := inputs.any (fun i => isFectV i || isPromiseLikeV i)
  if !infectedCall then
    plainBranch mr H inputs
  else
    let inCores := inputs.map (toCoreInputM mr)
    let mergedInFx := inCores.foldl (fun acc core => mergeFxRuntime acc (fxOf core)) []
    let inPayloads := inCores.map payloadOf
    if inPayloads.any isPendingF then
      let resolvedInputs := inPayloads.map (resolveSettled mr)
      let joined := joinResolved mr mt H resolvedInputs
      ⟨.ok (.fect (.pending 0 joined.1) mergedInFx), joined.2.1, joined.2.2⟩
    else
      syncBranch mr mt H mergedInFx (inPayloads.map forceSettled)

/-- Shape of the value returned by `wrapped` (`lib/fn.ts`): when some input
is a `FectLazy`, the call returns a fresh lazy suspension deferring
`forceFectLazy(evaluate(...inputs))` — recorded here together with the
deferred evaluation; otherwise `evaluate` runs immediately. -/
inductive WrappedRet : Type where
  | direct (out : EvalOut)
  | lazySusp (deferred : EvalOut)

/-- `wrapped` (`lib/fn.ts`). -/
def wrappedM (mr mt : Val → Val) (H : Handler) (inputs : List Val) : WrappedRet :=
  if inputs.any isFectLazyV then
    .lazySusp (evaluateM mr mt H inputs)
  else
    .direct (evaluateM mr mt H inputs)

/-- All lazy ids forced once the result of `wrapped` is fully discharged:
the ids forced while `evaluate` runs plus, when the result itself is a lazy
suspension, the ids forced by the `forceFectLazy` applied to it. -/
def wrappedForceLog (mr mt : Val → Val) (H : Handler) (inputs : List Val) : List Nat :=
  let o := evaluateM mr mt H inputs
  o.forced ++ (match o.res with
    | .ok v => (forceFectLazyM v).2
    | .error _ => [])


/-- The merged input metadata of a call, as computed by `evaluate`. -/
def mergedFxOf (mr : Val → Val) (inputs : List Val) : FxRec :=
  (inputs.map (toCoreInputM mr)).foldl (fun acc core => mergeFxRuntime acc (fxOf core)) []

/-- The positional list of settled input payloads of a fully synchronous
infected call, as computed by `evaluate`. -/
def settledInputsOf (mr : Val → Val) (inputs : List Val) : List (Payload Val) :=
  ((inputs.map (toCoreInputM mr)).map payloadOf).map forceSettled

/-! ## Flattening

`flatV` is the carrier-nesting invariant of the data model: no success
payload value (settled or pending) is itself a carrier, recursively through
lazy wrappers and promise fulfilment values. -/

/-- No success value reachable inside `v` is itself a carrier. -/
def flatV : Val → Bool
  | .fect (.settled (.ok v)) _ => !isFectV v && flatV v
  | .fect (.settled (.err _)) _ => true
  | .fect (.pending _ (.resolve (.ok v))) _ => !isFectV v && flatV v
  | .fect (.pending _ (.resolve (.err _))) _ => true
  | .fect (.pending _ (.reject _)) _ => true
  | .lazyv _ inner => flatV inner
  | .prom _ false v => flatV v
  | _ => true

/-- Flattening for a settled payload: its success value, if any, is not a
carrier and is itself flat. -/
def flatPayload : Payload Val → Bool
  | .ok v => !isFectV v && flatV v
  | .err _ => true

/-- Flattening for a payload-promise outcome. -/
def flatPOut : POut Val → Bool
  | .resolve sp => flatPayload sp
  | .reject _ => true

/-- Flattening for an evaluation result (an uncaught throw is vacuous). -/
def resFlat : Except Val Val → Bool
  | .ok v => flatV v
  | .error _ => true

/-- The immediate violation of the flattening invariant: a carrier whose
success value is itself a carrier. -/
def okValueIsCarrier : Val → Bool
  | .fect (.settled (.ok v)) _ => isFectV v
  | .fect (.pending _ (.resolve (.ok v))) _ => isFectV v
  | _ => false

/-- `g(f(x))` for two wrapped handlers on a non-lazy input: feed `f`'s
result (when it does not throw) to `g`. -/
def compose2 (mr mt : Val → Val) (Hf Hg : Handler) (x : Val) : Except Val Val :=
  match (evaluateM mr mt Hf [x]).res with
  | .ok v => (evaluateM mr mt Hg [v]).res
  | .error c => .error c

/-- A pending input carrier: its payload resolves at time `t` to `sp`. -/
def pendInput (t : Nat) (sp : Payload Val) : Val :=
  .fect (.pending t (.resolve sp)) []

/-! ## Type-level effect-metadata algebra

The static side of the metadata record (`MergeFx` in `lib/fect.ts`), which
unions the value types at every key of the two operands.  At the two keys
the runtime uses this means: the `async` fact (the type `true` is present
or absent) and the `result` fact (a union of tagged error variants,
embedded as a finite set of tags). -/

/-- A static effect-metadata record. -/
structure FxTy : Type where
  async : Bool
  errorVariants : Finset String
  deriving DecidableEq

/-- The empty metadata record. -/
def emptyFxTy : FxTy := ⟨false, ∅⟩

/-- `MergeFx` (`lib/fect.ts`): per-key union of the operands' facts. -/
def mergeFxTy (a b : FxTy) : FxTy :=
  ⟨a.async || b.async, a.errorVariants ∪ b.errorVariants⟩

/-- `InputArgToFx` of a carrier argument followed by `MergeInputFx2`
(`lib/fect.ts`): from the static metadata of the two arguments of `h(a,b)`
to the static metadata of the wrapped call. -/
def mergeInputFxTy2 (a b : FxTy) : FxTy :=
  mergeFxTy a b

/-! ## Lazy memoization (`buildLazy`, `lib/fect.ts`)

`buildLazy` closes over `hasValue`/`cachedValue`; `force()` runs the thunk
only when `hasValue` is false and records the result *after* the thunk
returns — a throwing run therefore caches nothing.  The thunk's behaviour
is modelled per invocation (`runs k`: the outcome of its `k`-th run), and
the state carries the invocation count so that "runs at most once" is a
statement about that count. -/

/-- The captured state of one `buildLazy` wrapper plus the number of times
its thunk has been invoked. -/
structure LazyCell : Type where
  hasValue : Bool
  cached : Option Val
  invocations : Nat

/-- The initial state of a freshly built wrapper. -/
def lazyInit : LazyCell := ⟨false, none, 0⟩

/-- One `force()` call: the result (`.error` = the thunk threw out of
`force`) and the updated state. -/
def forceM (runs : Nat → Except Val Val) (s : LazyCell) :
    Except Val Val × LazyCell :=
  if s.hasValue then
    (.ok (s.cached.getD .unit), s)
  else
    match runs s.invocations with
    | .ok v => (.ok v, ⟨true, some v, s.invocations + 1⟩)
    | .error c => (.error c, ⟨s.hasValue, s.cached, s.invocations + 1⟩)

/-- The state after `n` successive `force()` calls. -/
def forceIter (runs : Nat → Except Val Val) : Nat → LazyCell
  | 0 => lazyInit
  | n + 1 => (forceM runs (forceIter runs n)).2

/-! ## RemoteValue (`lib/remotevalue.ts`) -/

/-- The settlement state of one `RemoteValue`: the `settled` flag and the
outcome the promise was settled with (`.ok` = resolved, `.error` =
rejected). -/
structure RVState : Type where
  settled : Bool
  outcome : Option (Except Val Val)

/-- A freshly constructed, unsettled `RemoteValue`. -/
def rvInitState : RVState := ⟨false, none⟩

/-- `fill(value)`: transition the settled flag, resolve, report success. -/
def fillM (v : Val) (s : RVState) : Bool × RVState :=
  if s.settled then (false, s)
  else (true, ⟨true, some (.ok v)⟩)

/-- `fail(reason)`: transition the settled flag, reject, report success. -/
def failM (r : Val) (s : RVState) : Bool × RVState :=
  if s.settled then (false, s)
  else (true, ⟨true, some (.error r)⟩)

/-- A settlement attempt against one `RemoteValue`. -/
inductive RVCall : Type where
  | fillc (v : Val)
  | failc (r : Val)

/-- Apply one settlement attempt. -/
def rvStep (c : RVCall) (s : RVState) : Bool × RVState :=
  match c with
  | .fillc v => fillM v s
  | .failc r => failM r s

/-- Run a sequence of settlement attempts, collecting the returned flags. -/
def rvRun : List RVCall → RVState → List Bool × RVState
  | [], s => ([], s)
  | c :: rest, s =>
    let step := rvStep c s
    let tail := rvRun rest step.2
    (step.1 :: tail.1, tail.2)

/-- The outcome the first successful attempt fixes. -/
def rvOutcomeOf : RVCall → Except Val Val
  | .fillc v => .ok v
  | .failc r => .error r

/-- The process-wide registry (`RemoteValue.registry`): id → instance
state.  Only registered instances appear; `cleanup` removes an entry when
its instance settles. -/
abbrev Registry : Type := List (String × RVState)

/-- `registry.get(id)`. -/
def lookupReg (reg : Registry) (id : String) : Option RVState :=
  (reg.find? (fun p => p.1 == id)).map (fun p => p.2)

/-- `registry.delete(id)` (the settlement-time `cleanup`). -/
def eraseReg (reg : Registry) (id : String) : Registry :=
  reg.filter (fun p => !(p.1 == id))

/-- The registry effect of the constructor: a `RemoteValue` is added only
when the `register` option is set. -/
def rvConstruct (reg : Registry) (id : String) (register : Bool) : Registry :=
  if register then (id, rvInitState) :: reg else reg

/-- `RemoteValue.resolveById(id, value)`: look the id up; an unknown id
reports `false` and settles nothing, otherwise `fill` the instance (on
success the instance settles and its `cleanup` removes the entry). -/
def resolveByIdM (reg : Registry) (id : String) (v : Val) : Bool × Registry :=
  match lookupReg reg id with
  | none => (false, reg)
  | some s =>
    let r := fillM v s
    if r.1 then (true, eraseReg reg id) else (false, reg)

/-- `RemoteValue.rejectById(id, reason)`: same with `fail`. -/
def rejectByIdM (reg : Registry) (id : String) (r : Val) : Bool × Registry :=
  match lookupReg reg id with
  | none => (false, reg)
  | some s =>
    let q := failM r s
    if q.1 then (true, eraseReg reg id) else (false, reg)

/-! ## Partial discharge (`lib/match.ts`) -/

/-- `partiallyHandlePayload` (`lib/match.ts`): a success payload passes
through; an error payload whose error carries a string `_tag` with a
selected handler is rewritten into a success payload holding that
handler's result; any other error payload passes through. -/
def partiallyHandlePayloadM (handlers : List (String × (Val → Val)))
    (p : Payload Val) : Payload Val :=
  match p with
  | .ok v => .ok v
  | .err e =>
    match getTag e with
    | some tag =>
      match (handlers.find? (fun h => h.1 == tag)).map (fun h => h.2) with
      | some handler => .ok (handler e)
      | none => .err e
    | none => .err e

/-- `partial(input).with({ err: handlers })` (`lib/match.ts`) on a carrier:
force a lazy input first; a pending payload is mapped through
`partiallyHandlePayload` once it resolves (a rejection passes through
untouched, as the `.then` registers no rejection handler); a settled
payload is mapped immediately.  The input's `fx` record is reused as-is. -/
def partialWithM (handlers : List (String × (Val → Val))) (input : Val) : Val :=
  let resolvedInput := (forceFectLazyM input).1
  match resolvedInput with
  | .fect p fx =>
    match p with
    | .settled sp => .fect (.settled (partiallyHandlePayloadM handlers sp)) fx
    | .pending t (.resolve sp) =>
      .fect (.pending t (.resolve (partiallyHandlePayloadM handlers sp))) fx
    | .pending t (.reject c) => .fect (.pending t (.reject c)) fx
  | v => v

/-! ## Helper lemmas -/

theorem hasKeyFx_nil (k : String) : hasKeyFx [] k = false := rfl

theorem mergeFx_nil_left (a : FxRec) : mergeFxRuntime [] a = a := rfl

theorem mergeFx_nil_right (a : FxRec) : mergeFxRuntime a [] = a := by
  simp [mergeFxRuntime, hasKeyFx]

theorem any_key_filterNot (b c : FxRec) (k : String) :
    ((b.filter fun p => !(c.any fun q => q.1 == p.1)).any fun p => p.1 == k)
      = ((b.any fun p => p.1 == k) && !(c.any fun q => q.1 == k)) := by
  induction b with
  | nil => simp
  | cons x xs ih =>
    by_cases hx : x.1 = k
    · rw [List.filter_cons, List.any_cons]
      by_cases hc : (c.any fun q => q.1 == k) = true
      · have hck : (c.any fun q => q.1 == x.1) = true := by rw [hx]; exact hc
        simp [hck, hc, ih]
      · have hck : (c.any fun q => q.1 == x.1) = false := by
          rw [hx]; exact Bool.eq_false_iff.mpr hc
        simp [hck, hx, Bool.eq_false_iff.mpr hc, ih]
    · rw [List.filter_cons, List.any_cons]
      have hxk : (x.1 == k) = false := beq_eq_false_iff_ne.mpr hx
      by_cases hcx : (c.any fun q => q.1 == x.1) = true
      · simp [hcx, hxk, ih]
      · simp [Bool.eq_false_iff.mpr hcx, List.any_cons, hxk, ih]

theorem hasKeyFx_merge (b c : FxRec) (k : String) :
    hasKeyFx (mergeFxRuntime b c) k = (hasKeyFx b k || hasKeyFx c k) := by
  unfold mergeFxRuntime hasKeyFx
  rw [List.any_append, any_key_filterNot]
  cases hb : (b.any fun p => p.1 == k) <;> cases hc : (c.any fun q => q.1 == k) <;>
    simp [hb, hc]

theorem mergeFx_assoc (a b c : FxRec) :
    mergeFxRuntime (mergeFxRuntime a b) c = mergeFxRuntime a (mergeFxRuntime b c) := by
  show ((a.filter _ ++ b).filter _) ++ c = _
  rw [List.filter_append, List.append_assoc]
  show _ = a.filter (fun p => !(hasKeyFx (mergeFxRuntime b c) p.1)) ++ (b.filter _ ++ c)
  congr 1
  rw [List.filter_filter]
  apply List.filter_congr
  intro x _
  rw [hasKeyFx_merge]
  cases hasKeyFx b x.1 <;> cases hasKeyFx c x.1 <;> rfl

/-- A settled instance absorbs every later attempt. -/
theorem rvRun_settled (l : List RVCall) (s : RVState) (hs : s.settled = true) :
    rvRun l s = (l.map (fun _ => false), s) := by
  induction l generalizing s with
  | nil => rfl
  | cons d ds ih =>
    have hstep : rvStep d s = (false, s) := by
      cases d <;> simp [rvStep, fillM, failM, hs]
    simp [rvRun, hstep, ih s hs]

/-! ## C4: effect-metadata merge algebra -/

/-- C4, counterexample: the runtime merge `mergeFxRuntime` (`{ ...a, ...b }`)
is not commutative and does not union the error-variants fact — with both
operands declaring a `result` fact, only the right operand's error value
survives; concretely, wrapping `h(a,b)` with `a` failing with tag `A` and
`b` failing with tag `B` yields a carrier whose runtime fx record declares
only `B` (even though the discharged error is `A`'s). -/
theorem mergeFx_not_commutative_counterexample :
    mergeFxRuntime [("result", .tagged "A" .unit)] [("result", .tagged "B" .unit)]
      = [("result", .tagged "B" .unit)]
    ∧ mergeFxRuntime [("result", .tagged "B" .unit)] [("result", .tagged "A" .unit)]
      = [("result", .tagged "A" .unit)]
    ∧ mergeFxRuntime [("result", .tagged "A" .unit)] [("result", .tagged "B" .unit)]
      ≠ mergeFxRuntime [("result", .tagged "B" .unit)] [("result", .tagged "A" .unit)]
    ∧ (evaluateM defaultMapRejected defaultMapThrown (fun _ => .ret .unit [])
        [errC (.tagged "A" .unit), errC (.tagged "B" .unit)]).res
      = .ok (.fect (.settled (.err (.tagged "A" .unit))) [("result", .tagged "B" .unit)]) := by
  refine ⟨rfl, rfl, ?_, rfl⟩
  intro hcomm
  have h : [(("result" : String), Val.tagged "B" .unit)]
      = [(("result" : String), Val.tagged "A" .unit)] := hcomm
  injection h with h1 _
  injection h1 with _ h2
  injection h2 with h3 _
  exact absurd h3 (by decide)

/-- C4, amended: the runtime merge (`mergeFxRuntime`) is associative with
the empty record as two-sided identity, but it is right-biased at shared
keys rather than value-unioning (see the counterexample); the type-level
merge (`MergeFx`) that tracks metadata across composition is associative
and commutative with the empty record as identity, its `async` fact is the
boolean-or of the operands and its error-variants fact is the set union —
so wrapping `h(a,b)` where `a` may fail with tag `A` and `b` with tag `B`
statically declares both variants `A` and `B`. -/
theorem mergeFx_algebra_amended :
    (∀ a b c : FxRec,
      mergeFxRuntime (mergeFxRuntime a b) c = mergeFxRuntime a (mergeFxRuntime b c))
    ∧ (∀ a : FxRec, mergeFxRuntime [] a = a ∧ mergeFxRuntime a [] = a)
    ∧ (∀ x y : FxTy, mergeFxTy x y = mergeFxTy y x)
    ∧ (∀ x y z : FxTy, mergeFxTy (mergeFxTy x y) z = mergeFxTy x (mergeFxTy y z))
    ∧ (∀ x : FxTy, mergeFxTy emptyFxTy x = x ∧ mergeFxTy x emptyFxTy = x)
    ∧ (∀ x y : FxTy, (mergeFxTy x y).async = (x.async || y.async)
        ∧ (mergeFxTy x y).errorVariants = x.errorVariants ∪ y.errorVariants)
    ∧ (∀ tagA tagB : String,
        (mergeInputFxTy2 ⟨false, {tagA}⟩ ⟨false, {tagB}⟩).errorVariants = {tagA, tagB}) := by
  refine ⟨mergeFx_assoc, fun a => ⟨mergeFx_nil_left a, mergeFx_nil_right a⟩,
    ?_, ?_, ?_, fun x y => ⟨rfl, rfl⟩, ?_⟩
  · intro x y
    simp [mergeFxTy, Bool.or_comm, Finset.union_comm]
  · intro x y z
    simp [mergeFxTy, Bool.or_assoc, Finset.union_assoc]
  · intro x
    cases x
    simp [mergeFxTy, emptyFxTy]
  · intro tagA tagB
    show ({tagA} : Finset String) ∪ {tagB} = {tagA, tagB}
    exact (Finset.insert_eq tagA {tagB}).symm

/-! ## C6: lazy memoization -/

/-- C6, counterexample: a thunk that throws is not cached — with a thunk
whose every run throws, two `force()` calls invoke the thunk twice,
refuting "runs the thunk at most once across any number of force() calls". -/
theorem lazy_rerun_counterexample :
    (forceIter (fun _ => .error (.str "x")) 2).invocations = 2
    ∧ ¬ (forceIter (fun _ => .error (.str "x")) 2).invocations ≤ 1 := by
  exact ⟨rfl, by decide⟩

/-- C6, amended: a thunk whose first run returns normally runs exactly once
across any positive number of `force()` calls: the first `force()` invokes
the thunk and caches its value, and every subsequent `force()` returns the
cached value without invoking the thunk again (a run that throws, however,
caches nothing and the thunk is re-invoked by the next `force()`). -/
theorem lazy_force_memoized (runs : Nat → Except Val Val) (v : Val)
    (h : runs 0 = .ok v) :
    ∀ n, 1 ≤ n →
      forceIter runs n = ⟨true, some v, 1⟩
      ∧ (forceM runs (forceIter runs n)).1 = .ok v := by
  intro n hn
  induction n with
  | zero => omega
  | succ m ih =>
    rcases Nat.eq_zero_or_pos m with hm | hm
    · subst hm
      constructor
      · show (forceM runs lazyInit).2 = _
        simp [forceM, lazyInit, h]
      · show (forceM runs (forceM runs lazyInit).2).1 = _
        simp [forceM, lazyInit, h]
    · obtain ⟨hstate, _⟩ := ih hm
      have hnext : forceIter runs (m + 1) = ⟨true, some v, 1⟩ := by
        show (forceM runs (forceIter runs m)).2 = _
        rw [hstate]
        rfl
      exact ⟨hnext, by rw [hnext]; rfl⟩

/-- Witness for C6: a normally-returning thunk forced three times has run
exactly once and its cached value is returned. -/
theorem lazy_force_memoized_witness :
    forceIter (fun _ => .ok (Val.num 5)) 3 = ⟨true, some (Val.num 5), 1⟩
    ∧ (forceM (fun _ => .ok (Val.num 5)) (forceIter (fun _ => .ok (Val.num 5)) 3)).1
      = .ok (Val.num 5) :=
  lazy_force_memoized (fun _ => .ok (Val.num 5)) (Val.num 5) rfl 3 (by decide)

/-! ## C8: RemoteValue settles at most once -/

/-- C8: across any sequence of `fill`/`fail` attempts on one `RemoteValue`,
the first attempt returns `true` and fixes the settled outcome, and every
subsequent attempt returns `false` and leaves the outcome unchanged. -/
theorem remoteValue_settles_once (c : RVCall) (rest : List RVCall) :
    rvRun (c :: rest) rvInitState
      = (true :: rest.map (fun _ => false), ⟨true, some (rvOutcomeOf c)⟩) := by
  have hstep : rvStep c rvInitState = (true, ⟨true, some (rvOutcomeOf c)⟩) := by
    cases c <;> rfl
  simp [rvRun, hstep, rvRun_settled rest ⟨true, some (rvOutcomeOf c)⟩ rfl]

/-! ## C10: settlement by unknown id -/

/-- C10: `resolveById`/`rejectById` return `false` and settle nothing when
the id has no registry entry; a `RemoteValue` constructed without the
`register` option adds no entry; and even while an already-settled
instance's entry is still present, both operations return `false` and
change nothing (they never throw: the lookup miss is handled explicitly). -/
theorem resolveById_unknown_id (reg : Registry) (id : String) (v r : Val) :
    (lookupReg reg id = none →
      resolveByIdM reg id v = (false, reg) ∧ rejectByIdM reg id r = (false, reg))
    ∧ rvConstruct reg id false = reg
    ∧ (∀ s, lookupReg reg id = some s → s.settled = true →
      resolveByIdM reg id v = (false, reg) ∧ rejectByIdM reg id r = (false, reg)) := by
  refine ⟨fun h => ?_, rfl, fun s hs hset => ?_⟩
  · constructor <;> simp [resolveByIdM, rejectByIdM, h]
  · constructor <;> simp [resolveByIdM, rejectByIdM, hs, fillM, failM, hset]

/-- Witness for C10: an id absent from a concrete registry, and the id of a
settled instance, are both refused with the registry left unchanged. -/
theorem resolveById_unknown_id_witness :
    resolveByIdM [("a", ⟨true, some (Except.ok Val.unit)⟩)] "b" Val.unit
      = (false, [("a", ⟨true, some (Except.ok Val.unit)⟩)])
    ∧ rejectByIdM [("a", ⟨true, some (Except.ok Val.unit)⟩)] "a" Val.unit
      = (false, [("a", ⟨true, some (Except.ok Val.unit)⟩)]) := by
  have h1 := resolveById_unknown_id
    [("a", ⟨true, some (Except.ok Val.unit)⟩)] "b" Val.unit Val.unit
  have h2 := resolveById_unknown_id
    [("a", ⟨true, some (Except.ok Val.unit)⟩)] "a" Val.unit Val.unit
  exact ⟨(h1.1 rfl).1, (h2.2.2 ⟨true, some (Except.ok Val.unit)⟩ rfl rfl).2⟩

/-! ## C9: partial discharge -/

/-- C9: `partial(input).with({ err: handlers })` rewrites a settled error
payload whose tag has a selected handler into a success payload holding
that handler's result; a success payload and an error payload with no
selected handler pass through unchanged; a pending payload keeps its
pending (async) status with the same rewriting applied at settlement; and
the carrier's `fx` record is reused untouched in every case. -/
theorem partial_with_spec (hs : List (String × (Val → Val))) (t : String)
    (hfun : Val → Val) (c v : Val) (sp : Payload Val) (fx : FxRec) (tm : Nat) :
    (partialWithM hs (.fect (.settled (.ok v)) fx) = .fect (.settled (.ok v)) fx)
    ∧ ((hs.find? (fun p => p.1 == t)).map Prod.snd = some hfun →
        partialWithM hs (.fect (.settled (.err (.tagged t c))) fx)
          = .fect (.settled (.ok (hfun (.tagged t c)))) fx)
    ∧ ((hs.find? (fun p => p.1 == t)).map Prod.snd = none →
        partialWithM hs (.fect (.settled (.err (.tagged t c))) fx)
          = .fect (.settled (.err (.tagged t c))) fx)
    ∧ (partialWithM hs (.fect (.pending tm (.resolve sp)) fx)
        = .fect (.pending tm (.resolve (partiallyHandlePayloadM hs sp))) fx)
    ∧ (∀ p, fxOf (partialWithM hs (.fect p fx)) = fx
        ∧ isPendingF (payloadOf (partialWithM hs (.fect p fx))) = isPendingF p) := by
  refine ⟨rfl, fun hfind => ?_, fun hfind => ?_, rfl, fun p => ?_⟩
  · simp [partialWithM, forceFectLazyM, partiallyHandlePayloadM, getTag, hfind]
  · simp [partialWithM, forceFectLazyM, partiallyHandlePayloadM, getTag, hfind]
  · rcases p with sp2 | ⟨tm2, out⟩
    · exact ⟨rfl, rfl⟩
    · rcases out with p2 | c2 <;> exact ⟨rfl, rfl⟩

/-- Witness for C9: with the selected handler set `{E: recover}`, a tagged
`E` error is rewritten to the handler's success value and a tagged `F`
error passes through. -/
theorem partial_with_spec_witness :
    partialWithM [("E", fun _ => Val.num 9)]
        (.fect (.settled (.err (.tagged "E" .unit))) [("result", .tagged "E" .unit)])
      = .fect (.settled (.ok (.num 9))) [("result", .tagged "E" .unit)]
    ∧ partialWithM [("E", fun _ => Val.num 9)]
        (.fect (.settled (.err (.tagged "F" .unit))) [])
      = .fect (.settled (.err (.tagged "F" .unit))) [] := by
  have h1 := partial_with_spec [("E", fun _ => Val.num 9)] "E" (fun _ => Val.num 9)
    Val.unit Val.unit (Payload.ok Val.unit) [("result", .tagged "E" .unit)] 0
  have h2 := partial_with_spec [("E", fun _ => Val.num 9)] "F" (fun _ => Val.num 9)
    Val.unit Val.unit (Payload.ok Val.unit) [] 0
  exact ⟨h1.2.1 rfl, h2.2.2.1 rfl⟩

/-! ## Helper lemmas about forcing and payload resolution -/

theorem forceFectLazyM_not_lazy (v : Val) : isFectLazyV (forceFectLazyM v).1 = false := by
  induction v using forceFectLazyM.induct with
  | case1 id inner ih => simpa [forceFectLazyM] using ih
  | case2 v h => cases v <;> simp_all [forceFectLazyM, isFectLazyV]

theorem forceFectLazyM_of_not_lazy (v : Val) (h : isFectLazyV v = false) :
    forceFectLazyM v = (v, []) := by
  cases v <;> simp_all [forceFectLazyM, isFectLazyV]

theorem forceFectLazyM_idem (v : Val) :
    forceFectLazyM (forceFectLazyM v).1 = ((forceFectLazyM v).1, []) :=
  forceFectLazyM_of_not_lazy _ (forceFectLazyM_not_lazy v)

theorem find?_isErrP_of_leftmost (l : List (Payload Val)) (i : Nat) (e : Val)
    (hi : l.get? i = some (.err e))
    (hok : ∀ j, j < i → ∃ v, l.get? j = some (.ok v)) :
    l.find? isErrP = some (.err e) := by
  induction l generalizing i with
  | nil => simp at hi
  | cons x xs ih =>
    cases i with
    | zero =>
      simp only [List.get?_cons_zero] at hi
      injection hi with hx
      subst hx
      rfl
    | succ n =>
      obtain ⟨v, hv⟩ := hok 0 (Nat.succ_pos n)
      simp only [List.get?_cons_zero] at hv
      injection hv with hx
      subst hx
      simp only [List.get?_cons_succ] at hi
      rw [List.find?]
      show (if isErrP (Payload.ok v) = true then some (Payload.ok v) else xs.find? isErrP)
        = some (Payload.err e)
      rw [if_neg (by simp [isErrP])]
      exact ih n hi (fun j hj => hok (j + 1) (Nat.succ_lt_succ hj))

theorem find?_isSome_of_mem (l : List (Payload Val)) (i : Nat) (e : Val)
    (hi : l.get? i = some (.err e)) :
    ∃ sp, l.find? isErrP = some sp := by
  cases hf : l.find? isErrP with
  | some sp => exact ⟨sp, rfl⟩
  | none =>
    have hmem : (Payload.err e) ∈ l := List.get?_mem hi
    have := List.find?_eq_none.mp hf _ hmem
    simp [isErrP] at this

/-- Facts about a list of all-pending input carriers (`pendInput`). -/
theorem zip_pend_facts (mr : Val → Val) :
    ∀ (ts : List Nat) (sps : List (Payload Val)), ts.length = sps.length →
    (List.zipWith pendInput ts sps).map (toCoreInputM mr) = List.zipWith pendInput ts sps
    ∧ (((List.zipWith pendInput ts sps).map (toCoreInputM mr)).map payloadOf).map
        (resolveSettled mr) = sps
    ∧ (∀ acc : FxRec, ((List.zipWith pendInput ts sps).map (toCoreInputM mr)).foldl
        (fun a c => mergeFxRuntime a (fxOf c)) acc = acc)
    ∧ (sps ≠ [] → (((List.zipWith pendInput ts sps).map (toCoreInputM mr)).map
        payloadOf).any isPendingF = true)
    ∧ (sps ≠ [] → (List.zipWith pendInput ts sps).any
        (fun i => isFectV i || isPromiseLikeV i) = true) := by
  intro ts
  induction ts with
  | nil =>
    intro sps hlen
    have : sps = [] := by
      cases sps with
      | nil => rfl
      | cons a l => simp at hlen
    subst this
    exact ⟨rfl, rfl, fun _ => rfl, fun h => absurd rfl h, fun h => absurd rfl h⟩
  | cons t ts ih =>
    intro sps hlen
    cases sps with
    | nil => simp at hlen
    | cons sp sps =>
      simp only [List.length_cons, Nat.succ.injEq] at hlen
      obtain ⟨ha, hb, hc, _, _⟩ := ih sps hlen
      have htc : toCoreInputM mr (pendInput t sp) = pendInput t sp := by
        simp [toCoreInputM, pendInput, isFectV]
      have hb2 := hb
      rw [ha] at hb2
      refine ⟨?_, ?_, ?_, fun _ => ?_, fun _ => ?_⟩
      · simp [htc, ha]
      · simp only [List.zipWith_cons_cons, List.map_cons, htc, ha, hb2,
          pendInput, payloadOf, resolveSettled]
        rfl
      · intro acc
        simp only [List.zipWith_cons_cons, List.map_cons, htc, List.foldl_cons]
        rw [show fxOf (pendInput t sp) = [] from rfl, mergeFx_nil_right]
        exact hc acc
      · simp only [List.zipWith_cons_cons, List.map_cons, htc, List.any_cons]
        simp [pendInput, payloadOf, isPendingF]
      · simp only [List.zipWith_cons_cons, List.any_cons]
        simp [pendInput, isFectV]

/-- Facts about a list of trivially successful input carriers (`okC`). -/
theorem okC_facts (mr : Val → Val) (vs : List Val) :
    (vs.map okC).map (toCoreInputM mr) = vs.map okC
    ∧ (((vs.map okC).map (toCoreInputM mr)).map payloadOf).any isPendingF = false
    ∧ (∀ acc : FxRec, ((vs.map okC).map (toCoreInputM mr)).foldl
        (fun a c => mergeFxRuntime a (fxOf c)) acc = acc)
    ∧ (((vs.map okC).map (toCoreInputM mr)).map payloadOf).map forceSettled
        = vs.map Payload.ok
    ∧ (vs.map Payload.ok).find? isErrP = none
    ∧ (vs.map Payload.ok).map okValOf = vs := by
  induction vs with
  | nil => exact ⟨rfl, rfl, fun _ => rfl, rfl, rfl, rfl⟩
  | cons v vs ih =>
    obtain ⟨ha, hb, hc, hd, he, hf⟩ := ih
    have htc : toCoreInputM mr (okC v) = okC v := by
      simp [toCoreInputM, okC, isFectV]
    refine ⟨?_, ?_, ?_, ?_, ?_, ?_⟩
    · simp [htc, ha]
    · simp only [List.map_cons, htc, ha, List.any_cons]
      simp [okC, payloadOf, isPendingF, hb]
    · intro acc
      simp only [List.map_cons, htc, List.foldl_cons]
      rw [show fxOf (okC v) = [] from rfl, mergeFx_nil_right]
      exact hc acc
    · simp only [List.map_cons, htc, ha]
      simp [okC, payloadOf, forceSettled, hd]
    · simp [List.find?_cons, isErrP, he]
    · simp [okValOf, hf]

/-! ## Branch characterizations of `evaluateM` -/

theorem evaluateM_plain_eq (mr mt : Val → Val) (H : Handler) (inputs : List Val)
    (hinf : (inputs.any fun i => isFectV i || isPromiseLikeV i) = false) :
    evaluateM mr mt H inputs = plainBranch mr H inputs := by
  simp only [evaluateM]
  rw [hinf]
  rfl

theorem evaluateM_async_eq (mr mt : Val → Val) (H : Handler) (inputs : List Val)
    (hinf : (inputs.any fun i => isFectV i || isPromiseLikeV i) = true)
    (hp : ((inputs.map (toCoreInputM mr)).map payloadOf).any isPendingF = true) :
    evaluateM mr mt H inputs =
      ⟨.ok (.fect (.pending 0 (joinResolved mr mt H
            (((inputs.map (toCoreInputM mr)).map payloadOf).map (resolveSettled mr))).1)
          (mergedFxOf mr inputs)),
        (joinResolved mr mt H
          (((inputs.map (toCoreInputM mr)).map payloadOf).map (resolveSettled mr))).2.1,
        (joinResolved mr mt H
          (((inputs.map (toCoreInputM mr)).map payloadOf).map (resolveSettled mr))).2.2⟩ := by
  simp only [evaluateM]
  rw [hinf, hp]
  rfl

theorem evaluateM_sync_eq (mr mt : Val → Val) (H : Handler) (inputs : List Val)
    (hinf : (inputs.any fun i => isFectV i || isPromiseLikeV i) = true)
    (hp : ((inputs.map (toCoreInputM mr)).map payloadOf).any isPendingF = false) :
    evaluateM mr mt H inputs
      = syncBranch mr mt H (mergedFxOf mr inputs) (settledInputsOf mr inputs) := by
  simp only [evaluateM]
  rw [hinf, hp]
  rfl

/-! ## C1: positional error selection over pending inputs -/

/-- C1: when the arguments are pending (asynchronous) sources — two or more
of them — the settled payloads are scanned in argument position order once
all inputs settle, and the error surfaced is the one at the leftmost
failing position.  The settle times `ts` are universally quantified and
absent from the conclusion: the selection is independent of the order in
which the inputs settle.  The handler is never invoked. -/
theorem fn_positional_tiebreak (mr mt : Val → Val) (H : Handler)
    (sps : List (Payload Val)) (ts : List Nat) (i : Nat) (e : Val)
    (hlen : ts.length = sps.length) (h2 : 2 ≤ sps.length)
    (hi : sps.get? i = some (.err e))
    (hok : ∀ j, j < i → ∃ v, sps.get? j = some (.ok v)) :
    (evaluateM mr mt H (List.zipWith pendInput ts sps)).res
      = .ok (.fect (.pending 0 (.resolve (.err e))) [])
    ∧ (evaluateM mr mt H (List.zipWith pendInput ts sps)).calls = [] := by
  obtain ⟨ha, hb, hc, hd, he⟩ := zip_pend_facts mr ts sps hlen
  have hne : sps ≠ [] := by
    intro h
    rw [h] at h2
    simp at h2
  have hfind := find?_isErrP_of_leftmost sps i e hi hok
  have hd2 := hd hne
  have he2 := he hne
  have hm : mergedFxOf mr (List.zipWith pendInput ts sps) = [] := hc []
  have heval := evaluateM_async_eq mr mt H (List.zipWith pendInput ts sps) he2 hd2
  rw [hb, hm] at heval
  rw [heval]
  simp [joinResolved, hfind]

/-- Witness for C1: two pending inputs that both fail, the second settling
(at time 1) before the first (at time 5); the discharged error is the first
argument's `E1`. -/
theorem fn_positional_tiebreak_witness :
    (evaluateM defaultMapRejected defaultMapThrown (fun _ => .ret .unit [])
        (List.zipWith pendInput [5, 1]
          [Payload.err (.str "E1"), Payload.err (.str "E2")])).res
      = .ok (.fect (.pending 0 (.resolve (.err (.str "E1")))) []) :=
  (fn_positional_tiebreak defaultMapRejected defaultMapThrown (fun _ => .ret .unit [])
    [Payload.err (.str "E1"), Payload.err (.str "E2")] [5, 1] 0 (.str "E1")
    rfl (by decide) rfl (fun j hj => absurd hj (Nat.not_lt_zero j))).1

/-! ## C5: synchronous throws -/

theorem syncBranch_res_not_error (mr mt : Val → Val) (H : Handler) (fxm : FxRec)
    (sps : List (Payload Val)) (c : Val) :
    (syncBranch mr mt H fxm sps).res ≠ .error c := by
  simp only [syncBranch]
  split
  · simp
  · split
    · simp
    · split_ifs <;> simp

/-- C5, counterexample: on a call whose arguments are all plain values, the
plain path invokes the handler outside any try/catch — a synchronous throw
is not converted into a defect carrier but propagates to the caller of the
wrapped function. -/
theorem plain_throw_propagates_counterexample :
    (evaluateM defaultMapRejected defaultMapThrown
        (fun _ => .thr (.str "boom") []) [.num 1]).res
      = .error (.str "boom")
    ∧ wrappedM defaultMapRejected defaultMapThrown
        (fun _ => .thr (.str "boom") []) [.num 1]
      = .direct (evaluateM defaultMapRejected defaultMapThrown
          (fun _ => .thr (.str "boom") []) [.num 1]) :=
  ⟨rfl, rfl⟩

/-- C5, amended: on an infected call (some argument is a carrier or a
promise-like), the evaluation never rethrows a synchronous throw of the
handler; in the fully settled all-success case the throw is caught and
converted into an error carrier holding the image of the thrown cause under
the configured `mapThrown`/`mapDefect` (by default `UnknownException`).
On an all-plain call, however, the throw propagates (see the
counterexample). -/
theorem infected_throw_defect (mr mt : Val → Val) (H : Handler) (inputs : List Val)
    (hinf : (inputs.any fun i => isFectV i || isPromiseLikeV i) = true) :
    (∀ c, (evaluateM mr mt H inputs).res ≠ .error c)
    ∧ (∀ vs c f, inputs = vs.map okC → H vs = .thr c f →
        (evaluateM mr mt H inputs).res
          = .ok (.fect (.settled (.err (mt c))) [("result", .boolv true)])) := by
  constructor
  · intro c
    by_cases hp : ((inputs.map (toCoreInputM mr)).map payloadOf).any isPendingF = true
    · rw [evaluateM_async_eq mr mt H inputs hinf hp]
      simp
    · rw [evaluateM_sync_eq mr mt H inputs hinf (Bool.eq_false_iff.mpr hp)]
      exact syncBranch_res_not_error mr mt H _ _ c
  · intro vs c f hin hH
    subst hin
    obtain ⟨_, hb, hc, hd, he, hf⟩ := okC_facts mr vs
    rw [evaluateM_sync_eq mr mt H (vs.map okC) hinf hb]
    have hm : mergedFxOf mr (vs.map okC) = [] := hc []
    have hs : settledInputsOf mr (vs.map okC) = vs.map Payload.ok := hd
    rw [hm, hs]
    simp only [syncBranch, he, hf, hH]
    rfl

/-- Witness for C5: a single success-carrier argument and a throwing
handler yield an `UnknownException` error carrier, and no uncaught throw. -/
theorem infected_throw_defect_witness :
    (∀ c, (evaluateM defaultMapRejected defaultMapThrown
        (fun _ => .thr (.str "boom") []) [okC (.num 1)]).res ≠ .error c)
    ∧ (evaluateM defaultMapRejected defaultMapThrown
        (fun _ => .thr (.str "boom") []) [okC (.num 1)]).res
      = .ok (.fect (.settled (.err (.tagged "UnknownException" (.str "boom"))))
          [("result", .boolv true)]) := by
  have h := infected_throw_defect defaultMapRejected defaultMapThrown
    (fun _ => .thr (.str "boom") []) [okC (.num 1)] rfl
  exact ⟨h.1, h.2 [.num 1] (.str "boom") [] rfl rfl⟩

/-! ## C2: error short-circuit -/

/-- C2, counterexample: with an error-carrying first argument and a
`FectLazy` second argument, the wrapped call returns a lazy suspension —
not a carrier — so "the call instead returns a carrier holding the first
input error" fails as stated.  (The short-circuit half still holds: the
deferred evaluation never invokes the handler.) -/
theorem fn_short_circuit_lazy_counterexample :
    wrappedM defaultMapRejected defaultMapThrown (fun _ => .ret (.num 7) [])
        [errC (.str "E"), .lazyv 3 (.num 1)]
      = .lazySusp (evaluateM defaultMapRejected defaultMapThrown
          (fun _ => .ret (.num 7) []) [errC (.str "E"), .lazyv 3 (.num 1)])
    ∧ (∀ out : EvalOut,
        wrappedM defaultMapRejected defaultMapThrown (fun _ => .ret (.num 7) [])
            [errC (.str "E"), .lazyv 3 (.num 1)]
          ≠ .direct out)
    ∧ (evaluateM defaultMapRejected defaultMapThrown
        (fun _ => .ret (.num 7) []) [errC (.str "E"), .lazyv 3 (.num 1)]).calls = [] := by
  refine ⟨rfl, fun out h => ?_, rfl⟩
  have h2 : WrappedRet.lazySusp (evaluateM defaultMapRejected defaultMapThrown
      (fun _ => .ret (.num 7) []) [errC (.str "E"), .lazyv 3 (.num 1)])
      = WrappedRet.direct out := h
  exact WrappedRet.noConfusion h2

/-- C2, amended: a call with at least one settled error-carrying carrier
argument never invokes the handler body (whether the inputs are settled,
pending, or lazy); when no input payload is pending, the evaluation
short-circuits to a carrier whose settled payload is the first error in
argument position order (and when additionally no argument is a
`FectLazy`, that carrier is returned directly rather than inside a lazy
suspension). -/
theorem fn_short_circuit (mr mt : Val → Val) (H : Handler) (inputs : List Val)
    (i : Nat) (e : Val) (fx : FxRec)
    (hi : inputs.get? i = some (.fect (.settled (.err e)) fx)) :
    (evaluateM mr mt H inputs).calls = []
    ∧ (((inputs.map (toCoreInputM mr)).map payloadOf).any isPendingF = false →
        ∃ sp, isErrP sp = true
          ∧ (settledInputsOf mr inputs).find? isErrP = some sp
          ∧ (evaluateM mr mt H inputs).res
              = .ok (.fect (.settled sp) (mergedFxOf mr inputs)))
    ∧ (inputs.any isFectLazyV = false →
        wrappedM mr mt H inputs = .direct (evaluateM mr mt H inputs)) := by
  have hmem : (Val.fect (.settled (.err e)) fx) ∈ inputs := List.get?_mem hi
  have hinf : (inputs.any fun x => isFectV x || isPromiseLikeV x) = true :=
    List.any_eq_true.mpr ⟨_, hmem, by simp [isFectV]⟩
  have hgetS : (settledInputsOf mr inputs).get? i = some (.err e) := by
    simp only [settledInputsOf, List.get?_map, hi]
    rfl
  have hgetR : ((((inputs.map (toCoreInputM mr)).map payloadOf).map
      (resolveSettled mr))).get? i = some (.err e) := by
    simp only [List.get?_map, hi]
    rfl
  refine ⟨?_, ?_, fun hlz => by simp [wrappedM, hlz]⟩
  · by_cases hp : ((inputs.map (toCoreInputM mr)).map payloadOf).any isPendingF = true
    · rw [evaluateM_async_eq mr mt H inputs hinf hp]
      obtain ⟨sp, hsp⟩ := find?_isSome_of_mem _ i e hgetR
      simp only [joinResolved, hsp]
    · rw [evaluateM_sync_eq mr mt H inputs hinf (Bool.eq_false_iff.mpr hp)]
      obtain ⟨sp, hsp⟩ := find?_isSome_of_mem _ i e hgetS
      simp only [syncBranch, hsp]
  · intro hnp
    obtain ⟨sp, hsp⟩ := find?_isSome_of_mem _ i e hgetS
    refine ⟨sp, List.find?_some hsp, hsp, ?_⟩
    rw [evaluateM_sync_eq mr mt H inputs hinf hnp]
    simp only [syncBranch, hsp]

/-- Witness for C2: a concrete call with an error carrier first and a
success carrier second short-circuits to the first argument's error and
performs no handler call. -/
theorem fn_short_circuit_witness :
    (evaluateM defaultMapRejected defaultMapThrown (fun _ => .ret (.num 7) [])
        [errC (.str "E"), okC (.num 1)]).calls = []
    ∧ ∃ sp, isErrP sp = true
        ∧ (settledInputsOf defaultMapRejected
            [errC (.str "E"), okC (.num 1)]).find? isErrP = some sp
        ∧ (evaluateM defaultMapRejected defaultMapThrown (fun _ => .ret (.num 7) [])
            [errC (.str "E"), okC (.num 1)]).res
          = .ok (.fect (.settled sp)
              (mergedFxOf defaultMapRejected [errC (.str "E"), okC (.num 1)])) := by
  have h := fn_short_circuit defaultMapRejected defaultMapThrown
    (fun _ => .ret (.num 7) []) [errC (.str "E"), okC (.num 1)] 0 (.str "E")
    [("result", .str "E")] rfl
  exact ⟨h.1, h.2.1 rfl⟩

/-! ## Flattening lemmas -/

theorem flatV_fect_settled (sp : Payload Val) (fx : FxRec) :
    flatV (.fect (.settled sp) fx) = flatPayload sp := by
  cases sp <;> rfl

theorem flatV_fect_pending (t : Nat) (out : POut Val) (fx : FxRec) :
    flatV (.fect (.pending t out) fx) = flatPOut out := by
  rcases out with p | c
  · cases p <;> rfl
  · rfl

theorem flat_force (v : Val) (h : flatV v = true) :
    flatV (forceFectLazyM v).1 = true := by
  induction v using forceFectLazyM.induct with
  | case1 id inner ih => simpa [forceFectLazyM] using ih h
  | case2 v hv => cases v <;> simp_all [forceFectLazyM]

theorem flat_resolveProm (v : Val) (h : flatV v = true) :
    ∀ w, resolveProm v = .ok w → flatV w = true := by
  induction v using resolveProm.induct with
  | case1 t c =>
    intro w hw
    simp [resolveProm] at hw
  | case2 t v ih =>
    intro w hw
    simp only [resolveProm] at hw
    exact ih h w hw
  | case3 v h1 h2 =>
    intro w hw
    cases v <;> simp_all [resolveProm]

theorem flat_settleToPayload (v : Val) (h : flatV v = true) :
    flatPOut (settleToPayloadM v) = true := by
  cases v with
  | fect p fx =>
    rcases p with sp | ⟨t, out⟩
    · rw [flatV_fect_settled] at h
      exact h
    · rw [flatV_fect_pending] at h
      exact h
  | lazyv id inner => simpa [settleToPayloadM, flatPOut, flatPayload, isFectV] using h
  | prom t rej v => simpa [settleToPayloadM, flatPOut, flatPayload, isFectV] using h
  | unit => rfl
  | boolv b => rfl
  | num n => rfl
  | str s => rfl
  | tagged tg c => rfl
  | failv e => rfl

theorem flat_settleAsyncRaw (mr : Val → Val) (v : Val) (h : flatV v = true) :
    flatPOut (settleAsyncRaw mr v) = true := by
  unfold settleAsyncRaw
  split
  · rfl
  · next w heq => exact flat_settleToPayload w (flat_resolveProm v h w heq)

theorem flatV_fect_fx (p : FPayload Val) (fx fx2 : FxRec) :
    flatV (.fect p fx) = flatV (.fect p fx2) := by
  rcases p with sp | ⟨t, out⟩
  · cases sp <;> rfl
  · rcases out with p2 | c
    · cases p2 <;> rfl
    · rfl

theorem flat_payload_of_fect (outRaw : Val) (hfect : isFectV outRaw = true)
    (hflat : flatV outRaw = true) (fxm : FxRec) :
    flatV (.fect (payloadOf outRaw) fxm) = true := by
  cases outRaw with
  | fect p0 fx0 =>
    rw [show payloadOf (Val.fect p0 fx0) = p0 from rfl, flatV_fect_fx p0 fxm fx0]
    exact hflat
  | unit => exact absurd hfect (by simp [isFectV])
  | boolv b => exact absurd hfect (by simp [isFectV])
  | num n => exact absurd hfect (by simp [isFectV])
  | str s2 => exact absurd hfect (by simp [isFectV])
  | tagged tg c => exact absurd hfect (by simp [isFectV])
  | failv e => exact absurd hfect (by simp [isFectV])
  | lazyv id inner => exact absurd hfect (by simp [isFectV])
  | prom t rej v2 => exact absurd hfect (by simp [isFectV])

theorem joinResolved_flat (mr mt : Val → Val) (H : Handler)
    (resolved : List (Payload Val))
    (hH : ∀ vs v f, H vs = .ret v f → flatV v = true) :
    flatPOut (joinResolved mr mt H resolved).1 = true := by
  simp only [joinResolved]
  split
  · next sp hsp =>
    have hperr := List.find?_some hsp
    cases sp
    · simp [isErrP] at hperr
    · rfl
  · split
    · rfl
    · next outRaw f hret =>
      split_ifs with h1 h2
      · exact flat_settleAsyncRaw mr outRaw (hH _ _ _ hret)
      · exact flat_settleToPayload _ (flat_force outRaw (hH _ _ _ hret))
      · exact flat_settleToPayload outRaw (hH _ _ _ hret)

theorem syncBranch_flat (mr mt : Val → Val) (H : Handler) (fxm : FxRec)
    (sps : List (Payload Val))
    (hH : ∀ vs v f, H vs = .ret v f → flatV v = true) :
    resFlat (syncBranch mr mt H fxm sps).res = true := by
  simp only [syncBranch]
  split
  · next sp hsp =>
    have hperr := List.find?_some hsp
    cases sp
    · simp [isErrP] at hperr
    · rfl
  · split
    · rfl
    · next outRaw f hret =>
      have hflat := hH _ _ _ hret
      split_ifs with h1 h2 h3 h4
      · show flatV (.fect (.pending 0 (settleAsyncRaw mr outRaw)) _) = true
        rw [flatV_fect_pending]
        exact flat_settleAsyncRaw mr outRaw hflat
      · exact flat_force outRaw hflat
      · rfl
      · exact flat_payload_of_fect outRaw h4 hflat _
      · show flatV (.fect (.settled (.ok outRaw)) fxm) = true
        rw [flatV_fect_settled]
        simp [flatPayload, hflat, Bool.eq_false_iff.mpr h4]

theorem plainBranch_flat (mr : Val → Val) (H : Handler) (inputs : List Val)
    (hH : ∀ vs v f, H vs = .ret v f → flatV v = true) :
    resFlat (plainBranch mr H inputs).res = true := by
  simp only [plainBranch]
  split
  · rfl
  · next outRaw f hret =>
    have hflat := hH _ _ _ hret
    split_ifs with h1 h2
    · show flatV (.fect (.pending 0 (settleAsyncRaw mr outRaw)) _) = true
      rw [flatV_fect_pending]
      exact flat_settleAsyncRaw mr outRaw hflat
    · rfl
    · exact hflat

theorem evaluateM_flat (mr mt : Val → Val) (H : Handler) (inputs : List Val)
    (hH : ∀ vs v f, H vs = .ret v f → flatV v = true) :
    resFlat (evaluateM mr mt H inputs).res = true := by
  by_cases hinf : (inputs.any fun i => isFectV i || isPromiseLikeV i) = true
  · by_cases hp : ((inputs.map (toCoreInputM mr)).map payloadOf).any isPendingF = true
    · rw [evaluateM_async_eq mr mt H inputs hinf hp]
      show flatV (.fect (.pending 0 _) _) = true
      rw [flatV_fect_pending]
      exact joinResolved_flat mr mt H _ hH
    · rw [evaluateM_sync_eq mr mt H inputs hinf (Bool.eq_false_iff.mpr hp)]
      exact syncBranch_flat mr mt H _ _ hH
  · rw [evaluateM_plain_eq mr mt H inputs (Bool.eq_false_iff.mpr hinf)]
    exact plainBranch_flat mr H inputs hH

theorem flat_no_nested (v : Val) (h : flatV v = true) :
    okValueIsCarrier v = false := by
  cases v with
  | fect p fx =>
    rcases p with sp | ⟨t, out⟩
    · cases sp with
      | ok w =>
        rw [flatV_fect_settled] at h
        simp only [flatPayload, Bool.and_eq_true, Bool.not_eq_true'] at h
        simp [okValueIsCarrier, h.1]
      | err e => rfl
    · rcases out with p2 | c
      · cases p2 with
        | ok w =>
          rw [flatV_fect_pending] at h
          simp only [flatPOut, flatPayload, Bool.and_eq_true, Bool.not_eq_true'] at h
          simp [okValueIsCarrier, h.1]
        | err e => rfl
      · rfl
  | unit => rfl
  | boolv b => rfl
  | num n => rfl
  | str s => rfl
  | tagged tg c => rfl
  | failv e => rfl
  | lazyv id inner => rfl
  | prom t rej v2 => rfl

/-! ## C3: flattening invariant under composition -/

/-- C3, counterexample: a handler may return an already multiply nested
carrier (`ok(ok(ok(1)))`); the plain path returns it untouched and the
infected path adopts exactly one payload layer, so `g(f(0))` with `g` the
wrapped identity yields a carrier whose success value is itself a carrier. -/
theorem compose_flatten_counterexample :
    compose2 defaultMapRejected defaultMapThrown
        (fun _ => .ret (okC (okC (okC (.num 1)))) [])
        (fun vs => .ret (vs.headD .unit) []) (.num 0)
      = .ok (.fect (.settled (.ok (okC (.num 1)))) [])
    ∧ okValueIsCarrier (.fect (.settled (.ok (okC (.num 1)))) []) = true :=
  ⟨rfl, rfl⟩

/-- C3, amended: provided each handler only ever returns flat values — in
particular any carrier it returns has a non-carrier success value, which
holds for every value built by `ok`/`err`/`fail` over non-carrier data —
the composition `g(f(x))` never yields a carrier whose payload's success
value is itself a carrier, for any input `x` whatsoever; the combinator
adopts a returned carrier's payload in place rather than nesting it. -/
theorem compose_flatten (mr mt : Val → Val) (Hf Hg : Handler) (x : Val)
    (_hf : ∀ vs v l, Hf vs = .ret v l → flatV v = true)
    (hg : ∀ vs v l, Hg vs = .ret v l → flatV v = true) :
    ∀ v, compose2 mr mt Hf Hg x = .ok v →
      flatV v = true ∧ okValueIsCarrier v = false := by
  intro v hv
  unfold compose2 at hv
  cases hres : (evaluateM mr mt Hf [x]).res with
  | error c =>
    rw [hres] at hv
    have hv2 : (Except.error c : Except Val Val) = .ok v := hv
    exact Except.noConfusion hv2
  | ok w =>
    rw [hres] at hv
    have hv2 : (evaluateM mr mt Hg [w]).res = .ok v := hv
    have h2 := evaluateM_flat mr mt Hg [w] hg
    rw [hv2] at h2
    exact ⟨h2, flat_no_nested v h2⟩

/-- Witness for C3: two wrapped handlers returning flat carriers compose to
a flat, non-nested carrier. -/
theorem compose_flatten_witness :
    compose2 defaultMapRejected defaultMapThrown
        (fun _ => .ret (okC (.num 2)) []) (fun _ => .ret (.num 3) []) (.num 0)
      = .ok (.fect (.settled (.ok (.num 3))) [])
    ∧ flatV (.fect (.settled (.ok (.num 3))) []) = true
    ∧ okValueIsCarrier (.fect (.settled (.ok (.num 3))) []) = false := by
  have h := compose_flatten defaultMapRejected defaultMapThrown
    (fun _ => .ret (okC (.num 2)) []) (fun _ => .ret (.num 3) []) (.num 0)
    (fun vs v l hv => by cases hv; rfl)
    (fun vs v l hv => by cases hv; rfl)
    (.fect (.settled (.ok (.num 3))) []) rfl
  exact ⟨rfl, h.1, h.2⟩

/-! ## C7: forcing performed by the pipeline -/

theorem joinResolved_forced (mr mt : Val → Val) (H : Handler)
    (resolved : List (Payload Val)) (id : Nat)
    (hret : ∀ vs v f, H vs = .ret v f → id ∉ f ∧ id ∉ (forceFectLazyM v).2)
    (hthr : ∀ vs c f, H vs = .thr c f → id ∉ f) :
    id ∉ (joinResolved mr mt H resolved).2.2 := by
  simp only [joinResolved]
  split
  · simp
  · split
    · next c f hH => exact hthr _ _ _ hH
    · next outRaw f hH =>
      split_ifs
      · exact (hret _ _ _ hH).1
      · intro hmem
        rcases List.mem_append.mp hmem with hm | hm
        · exact (hret _ _ _ hH).1 hm
        · exact (hret _ _ _ hH).2 hm
      · exact (hret _ _ _ hH).1

theorem syncBranch_forced (mr mt : Val → Val) (H : Handler) (fxm : FxRec)
    (sps : List (Payload Val)) (id : Nat)
    (hret : ∀ vs v f, H vs = .ret v f → id ∉ f ∧ id ∉ (forceFectLazyM v).2)
    (hthr : ∀ vs c f, H vs = .thr c f → id ∉ f) :
    id ∉ (syncBranch mr mt H fxm sps).forced
    ∧ (∀ v, (syncBranch mr mt H fxm sps).res = .ok v → id ∉ (forceFectLazyM v).2) := by
  simp only [syncBranch]
  split
  · refine ⟨by simp, fun v hv => ?_⟩
    injection hv with hv2
    subst hv2
    simp [forceFectLazyM]
  · split
    · next c f hH =>
      refine ⟨hthr _ _ _ hH, fun v hv => ?_⟩
      injection hv with hv2
      subst hv2
      simp [forceFectLazyM]
    · next outRaw f hH =>
      split_ifs
      · refine ⟨(hret _ _ _ hH).1, fun v hv => ?_⟩
        injection hv with hv2
        subst hv2
        simp [forceFectLazyM]
      · refine ⟨?_, fun v hv => ?_⟩
        · intro hmem
          rcases List.mem_append.mp hmem with hm | hm
          · exact (hret _ _ _ hH).1 hm
          · exact (hret _ _ _ hH).2 hm
        · injection hv with hv2
          subst hv2
          rw [forceFectLazyM_idem]
          simp
      · refine ⟨(hret _ _ _ hH).1, fun v hv => ?_⟩
        injection hv with hv2
        subst hv2
        simp [forceFectLazyM]
      · refine ⟨(hret _ _ _ hH).1, fun v hv => ?_⟩
        injection hv with hv2
        subst hv2
        simp [forceFectLazyM]
      · refine ⟨(hret _ _ _ hH).1, fun v hv => ?_⟩
        injection hv with hv2
        subst hv2
        simp [forceFectLazyM]

theorem plainBranch_forced (mr : Val → Val) (H : Handler) (inputs : List Val) (id : Nat)
    (hret : ∀ vs v f, H vs = .ret v f → id ∉ f ∧ id ∉ (forceFectLazyM v).2)
    (hthr : ∀ vs c f, H vs = .thr c f → id ∉ f) :
    id ∉ (plainBranch mr H inputs).forced
    ∧ (∀ v, (plainBranch mr H inputs).res = .ok v → id ∉ (forceFectLazyM v).2) := by
  simp only [plainBranch]
  split
  · next c f hH =>
    refine ⟨hthr _ _ _ hH, fun v hv => Except.noConfusion hv⟩
  · next outRaw f hH =>
    split_ifs
    · refine ⟨(hret _ _ _ hH).1, fun v hv => ?_⟩
      injection hv with hv2
      subst hv2
      simp [forceFectLazyM]
    · refine ⟨(hret _ _ _ hH).1, fun v hv => ?_⟩
      injection hv with hv2
      subst hv2
      simp [errC, forceFectLazyM]
    · refine ⟨(hret _ _ _ hH).1, fun v hv => ?_⟩
      injection hv with hv2
      subst hv2
      exact (hret _ _ _ hH).2

theorem evaluateM_forced (mr mt : Val → Val) (H : Handler) (inputs : List Val) (id : Nat)
    (hret : ∀ vs v f, H vs = .ret v f → id ∉ f ∧ id ∉ (forceFectLazyM v).2)
    (hthr : ∀ vs c f, H vs = .thr c f → id ∉ f) :
    id ∉ (evaluateM mr mt H inputs).forced
    ∧ (∀ v, (evaluateM mr mt H inputs).res = .ok v → id ∉ (forceFectLazyM v).2) := by
  by_cases hinf : (inputs.any fun i => isFectV i || isPromiseLikeV i) = true
  · by_cases hp : ((inputs.map (toCoreInputM mr)).map payloadOf).any isPendingF = true
    · rw [evaluateM_async_eq mr mt H inputs hinf hp]
      refine ⟨joinResolved_forced mr mt H _ id hret hthr, fun v hv => ?_⟩
      injection hv with hv2
      subst hv2
      simp [forceFectLazyM]
    · rw [evaluateM_sync_eq mr mt H inputs hinf (Bool.eq_false_iff.mpr hp)]
      exact syncBranch_forced mr mt H _ _ id hret hthr
  · rw [evaluateM_plain_eq mr mt H inputs (Bool.eq_false_iff.mpr hinf)]
    exact plainBranch_forced mr H inputs id hret hthr

/-- C7: a `FectLazy` argument makes `wrapped` defer the entire evaluation
into a new lazy suspension; when that suspension is forced at discharge
time, the pipeline forces only lazies returned by the handler — so a lazy
argument whose id the handler (and its composed chain) never forces is
never forced: its id is absent from the complete forcing log. -/
theorem lazy_arg_never_forced (mr mt : Val → Val) (H : Handler) (inputs : List Val)
    (i id : Nat) (inner : Val)
    (harg : inputs.get? i = some (.lazyv id inner))
    (hret : ∀ vs v f, H vs = .ret v f → id ∉ f ∧ id ∉ (forceFectLazyM v).2)
    (hthr : ∀ vs c f, H vs = .thr c f → id ∉ f) :
    wrappedM mr mt H inputs = .lazySusp (evaluateM mr mt H inputs)
    ∧ id ∉ wrappedForceLog mr mt H inputs := by
  have hmem : (Val.lazyv id inner) ∈ inputs := List.get?_mem harg
  have hlz : inputs.any isFectLazyV = true :=
    List.any_eq_true.mpr ⟨_, hmem, by simp [isFectLazyV]⟩
  obtain ⟨hforced, hres⟩ := evaluateM_forced mr mt H inputs id hret hthr
  constructor
  · simp [wrappedM, hlz]
  · intro hmem2
    simp only [wrappedForceLog] at hmem2
    rcases List.mem_append.mp hmem2 with hm | hm
    · exact hforced hm
    · rcases hok : (evaluateM mr mt H inputs).res with c | v
      · rw [hok] at hm
        simp at hm
      · rw [hok] at hm
        exact hres v hok hm

/-- Witness for C7: a handler that ignores its argument; the lazy argument
with id 7 is never forced and the call returns a lazy suspension. -/
theorem lazy_arg_never_forced_witness :
    wrappedM defaultMapRejected defaultMapThrown (fun _ => .ret (.num 1) [])
        [.lazyv 7 (.num 5)]
      = .lazySusp (evaluateM defaultMapRejected defaultMapThrown
          (fun _ => .ret (.num 1) []) [.lazyv 7 (.num 5)])
    ∧ 7 ∉ wrappedForceLog defaultMapRejected defaultMapThrown
        (fun _ => .ret (.num 1) []) [.lazyv 7 (.num 5)] :=
  lazy_arg_never_forced defaultMapRejected defaultMapThrown (fun _ => .ret (.num 1) [])
    [.lazyv 7 (.num 5)] 0 7 (.num 5) rfl
    (fun _ v f hv => by
      injection hv with hv1 hv2
      subst hv1
      subst hv2
      exact ⟨by simp, by simp [forceFectLazyM]⟩)
    (fun _ c f hv => HOut.noConfusion hv)

end Fect
